import Mathlib

/-!
Verification development for the VirusTotal worker (src/vt.py).

The classification core (name extraction, heuristic classification,
verdict aggregation) and the three indicator handlers are embedded
shallowly.  Python dicts whose insertion order is observable
(`response['results']['scans']`, `collections.Counter`) are modelled as
association lists in insertion order; Python exceptions are modelled
explicitly with an error type; `re.match` against the two hard-coded
patterns is modelled by direct implementations of their backtracking
semantics, documented at each definition.
-/

namespace VT

/-- Errors a handler invocation can raise, modelling the Python exceptions
that the code in src/vt.py can actually produce on its data path. -/
inductive PyErr where
  | attributeError : PyErr
  | keyError : String → PyErr
deriving DecidableEq

/-- Decidable equality for Except values, used to evaluate the embedded
handlers on concrete inputs. -/
instance {ε α : Type} [DecidableEq ε] [DecidableEq α] : DecidableEq (Except ε α) := fun x y =>
  match x, y with
  | .ok a, .ok b =>
    if h : a = b then .isTrue (h ▸ rfl) else .isFalse (fun he => h (Except.ok.inj he))
  | .error a, .error b =>
    if h : a = b then .isTrue (h ▸ rfl) else .isFalse (fun he => h (Except.error.inj he))
  | .ok _, .error _ => .isFalse (fun he => Except.noConfusion he)
  | .error _, .ok _ => .isFalse (fun he => Except.noConfusion he)

/-- Lower-casing of a string, modelling Python str.lower on the ASCII
strings this worker handles (src/vt.py line 130 and the .lower() calls in
name_extraction). -/
def strLower (s : String) : String := ⟨s.data.map Char.toLower⟩

/-- Decides whether the first list is a prefix of the second. -/
def isPre : List Char → List Char → Bool
  | [], _ => true
  | _ :: _, [] => false
  | a :: as, b :: bs => a == b && isPre as bs

/-- Decides whether needle occurs as a contiguous subsequence of hay;
model of the Python substring test used by the worker. -/
def seqIn : List Char → List Char → Bool
  | n, [] => n.isEmpty
  | n, c :: t => isPre n (c :: t) || seqIn n t

/-- Model of the Python expression needle in hay for strings
(src/vt.py lines 104 and 136). -/
def containsSub (needle hay : String) : Bool := seqIn needle.data hay.data

/-- AV_HEURISTICS, src/vt.py lines 43-46, in declaration order. -/
def AV_HEURISTICS : List String :=
  ["trojan", "adware", "dropper", "miner",
   "backdoor", "malware", "downloader", "rat",
   "hacktool", "ransomware", "cryptolocker",
   "banker", "financial", "eicar", "scanner"]

/-- ADWARE_OVERRIDES, src/vt.py line 48. -/
def ADWARE_OVERRIDES : List String := ["opencandy", "monetize", "adload", "somoto"]

/-- is_adware, src/vt.py lines 100-106: returns true at the first override
token occurring verbatim as a substring of the argument. -/
def is_adware (text : String) : Bool :=
  ADWARE_OVERRIDES.any (fun t => containsSub t text)

/-- Scans for the first occurrence of d, returning the text before it and
the text after it, and failing if a newline (which the lazy dot groups of
the anchored patterns cannot cross) or the end of the string is reached
first.  This is the semantics of each lazy group-plus-literal step of
MS_RE (src/vt.py line 50) under re.match: the lazy group takes the
shortest extent, and since nothing after the first colon-slash skeleton
can fail, a failure to reach the delimiter before a newline cannot be
repaired by backtracking. -/
def findDelim (d : Char) : List Char → Option (List Char × List Char)
  | [] => none
  | ch :: rest =>
    if ch = d then some ([], rest)
    else if ch = '\n' then none
    else
      match findDelim d rest with
      | some (pre, post) => some (ch :: pre, post)
      | none => none

/-- Character class of the name capture of MS_RE: any character other
than an exclamation mark or a dot. -/
def msKeep (ch : Char) : Bool := !(ch == '!') && !(ch == '.')

/-- Group 3 of re.match(MS_RE, s) for MS_RE of src/vt.py line 50.
Outer none: the pattern does not match at all (no colon-then-slash
skeleton reachable without crossing a newline).  Inner none: the pattern
matches but the optional name group is empty, i.e. match.groups()[2] is
Python None.  On a match the name group is the maximal run of
non-exclamation non-dot characters after the first slash that follows the
first colon, because the group is greedy and everything after it in the
pattern is optional. -/
def msGroup3 (s : List Char) : Option (Option (List Char)) :=
  match findDelim ':' s with
  | none => none
  | some (_, r1) =>
    match findDelim '/' r1 with
    | none => none
    | some (_, r2) =>
      let run := r2.takeWhile msKeep
      some (if run.isEmpty then none else some run)

/-- Name capture of KASPERSKY_RE (src/vt.py line 51) given the text
standing right after the second dot of the chosen split: it must start
with a non-dot character and extends greedily to the next dot or the end
(everything after it in the pattern is optional, so it never backtracks). -/
def kaspC : List Char → Option (List Char)
  | [] => none
  | ch :: rest =>
    if ch = '.' then none
    else some ((ch :: rest).takeWhile (fun x => !(x == '.')))

/-- Search for the platform segment of KASPERSKY_RE: the lazy group takes
one character at minimum, then each candidate terminating dot is tried in
order; a dot after which the name capture fails is swallowed into the
lazy group and the search continues.  A newline stops the search because
the lazy dot group cannot contain one. -/
def kaspB : List Char → Option (List Char)
  | [] => none
  | [_] => none
  | b :: r0 :: w =>
    if b = '\n' then none
    else if r0 = '.' then
      match kaspC w with
      | some r => some r
      | none => kaspB (r0 :: w)
    else kaspB (r0 :: w)

/-- Search for the type segment of KASPERSKY_RE, with the same lazy
backtracking shape as kaspB one level up. -/
def kaspA : List Char → Option (List Char)
  | [] => none
  | [_] => none
  | a :: r0 :: w =>
    if a = '\n' then none
    else if r0 = '.' then
      match kaspB w with
      | some r => some r
      | none => kaspA (r0 :: w)
    else kaspA (r0 :: w)

/-- Search for the optional greedy prefix group of KASPERSKY_RE: each
colon position is tried in ascending order as the end of the lazy
nonempty prefix; a colon whose tail fails is swallowed and the search
continues.  The participating branch of the optional group is tried
before the empty branch. -/
def kaspPreAux : List Char → Option (List Char)
  | [] => none
  | [_] => none
  | p :: r0 :: w =>
    if p = '\n' then none
    else if r0 = ':' then
      match kaspA w with
      | some r => some r
      | none => kaspPreAux (r0 :: w)
    else kaspPreAux (r0 :: w)

/-- Group 5 (match.groups()[4]) of re.match(KASPERSKY_RE, s): the
optional prefix branch is tried first over all colon positions, then the
pattern is retried with the prefix group empty. -/
def kaspGroup5 (s : List Char) : Option (List Char) :=
  match kaspPreAux s with
  | some r => some r
  | none => kaspA s

/-- name_extraction, src/vt.py lines 83-97.  The error value models the
AttributeError Python raises at line 90 when MS_RE matches but its name
group is empty, so that match.groups()[2] is None and None.lower() is
called. -/
def name_extraction (engine : String) (result : String) : Except PyErr (Option String) :=
  if engine = "Microsoft" then
    match msGroup3 result.data with
    | some (some run) => .ok (some (strLower ⟨run⟩))
    | some none => .error .attributeError
    | none => .ok none
  else if engine = "Kaspersky" then
    match kaspGroup5 result.data with
    | some run => .ok (some (strLower ⟨run⟩))
    | none => .ok none
  else .ok none

/-- Increment of a Counter entry (kind[heur] += 1, src/vt.py line 138):
a missing key is appended at the end, matching dict insertion order. -/
def incr : List (String × Nat) → String → List (String × Nat)
  | [], key => [(key, 1)]
  | (s, n) :: rest, key =>
    if s = key then (s, n + 1) :: rest else (s, n) :: incr rest key

/-- Lookup of a Counter entry; zero for a missing key. -/
def countOf : List (String × Nat) → String → Nat
  | [], _ => 0
  | (s, n) :: rest, key => if s = key then n else countOf rest key

/-- One pass of the heuristic vote loop, src/vt.py lines 135-138: each
vocabulary term occurring in the lower-cased result adds one vote. -/
def stepKind (kind : List (String × Nat)) (res : String) : List (String × Nat) :=
  AV_HEURISTICS.foldl (fun k h => if containsSub h res then incr k h else k) kind

/-- Stable insertion into a count-descending list: the new element goes
before the first strictly smaller or equal-count element, preserving the
relative order of equal counts of the original list when used by
sortDesc. -/
def insertDesc (x : String × Nat) : List (String × Nat) → List (String × Nat)
  | [] => [x]
  | y :: ys => if y.2 ≤ x.2 then x :: y :: ys else y :: insertDesc x ys

/-- Stable sort by count descending, the order produced by
Counter.most_common() (CPython: sorted by count, reverse, stable, so
ties keep dict insertion order). -/
def sortDesc : List (String × Nat) → List (String × Nat)
  | [] => []
  | x :: xs => insertDesc x (sortDesc xs)

/-- kind.most_common()[0][0] of src/vt.py line 143, guarded by the
nonemptiness test: the key of the head of the most_common ordering. -/
def mostCommonKey (kind : List (String × Nat)) : Option String :=
  (sortDesc kind).head?.map Prod.fst

/-- Modelled from the spec: the plurality winner as the specification
words it, namely the first entry, in tally insertion order, attaining
the maximal count.  Used only to be compared against mostCommonKey. -/
def fm : List (String × Nat) → Option (String × Nat)
  | [] => none
  | x :: xs =>
    match fm xs with
    | none => some x
    | some m => if x.2 < m.2 then some m else some x

/-- One engine entry of response['results']['scans']. -/
structure ScanBody where
  detected : Bool
  result : String
deriving DecidableEq

/-- Python set.add on the label set, modelled as an insertion-ordered
duplicate-free list (set semantics are recovered through membership). -/
def addName (names : List String) (n : String) : List String :=
  if n ∈ names then names else names ++ [n]

/-- names.add(name) guarded by the Python truthiness test if name:
(src/vt.py lines 126-128). -/
def noteName (names : List String) (nameOpt : Option String) : List String :=
  match nameOpt with
  | some n => if n = "" then names else addName names n
  | none => names

/-- names.add of the adware override label, src/vt.py lines 132-133. -/
def noteAdware (names : List String) (res : String) : List String :=
  if is_adware res then addName names "adware" else names

/-- The loop over response['results']['scans'].items() of src/vt.py
lines 122-138, threading the label set and the vote counter and
propagating the exception name_extraction can raise. -/
def foldScans : List (String × ScanBody) → List String → List (String × Nat) →
    Except PyErr (List String × List (String × Nat))
  | [], names, kind => .ok (names, kind)
  | (engine, body) :: rest, names, kind =>
    if body.detected then
      match name_extraction engine body.result with
      | .error e => .error e
      | .ok nameOpt =>
        let res := strLower body.result
        foldScans rest (noteAdware (noteName names nameOpt) res) (stepKind kind res)
    else foldScans rest names kind

/-- The label set produced for one scans table: the loop of src/vt.py
lines 122-138 followed by the plurality vote of lines 142-143. -/
def hexLabels (scans : List (String × ScanBody)) : Except PyErr (List String) :=
  match foldScans scans [] [] with
  | .error e => .error e
  | .ok (names, kind) =>
    .ok (match mostCommonKey kind with
         | some w => addName names w
         | none => names)

/-- The heuristic tally accumulated for one scans table. -/
def hexTally (scans : List (String × ScanBody)) : Except PyErr (List (String × Nat)) :=
  match foldScans scans [] [] with
  | .error e => .error e
  | .ok (_, kind) => .ok kind

/-- One relationship fact pushed to the ACT platform:
actapi.fact(factType, subType).source(sourceType, sourceValue)
.destination(destType, destValue).add(). -/
structure Fact where
  factType : String
  subType : Option String
  sourceType : String
  sourceValue : String
  destType : String
  destValue : String
deriving DecidableEq

/-- Observable outcome of one handler invocation: normal return with the
emitted facts, the print-response-and-sys.exit(1) path of handle_ip and
handle_domain, or an uncaught exception escaping the handler. -/
inductive Outcome where
  | ok : List Fact → Outcome
  | reportExit1 : Outcome
  | uncaught : PyErr → Outcome
deriving DecidableEq

/-- The isTool fact emitted per label, src/vt.py lines 145-149. -/
def mkIsTool (digest name : String) : Fact :=
  ⟨"isTool", some "vt", "hash", digest, "tool", name⟩

/-- results value of a file report; scans may be absent. -/
structure FileResults where
  scans : Option (List (String × ScanBody))
deriving DecidableEq

/-- A file report response; the top-level results key may be absent. -/
structure FileResponse where
  results : Option FileResults
deriving DecidableEq

/-- handle_hexdigest, src/vt.py lines 109-149.  Accessing
response['results'] when the key is absent raises an uncaught KeyError
(there is no try block in this handler); an absent scans key returns
normally with no facts; otherwise the classification pipeline runs and
one isTool fact is emitted per label. -/
def handle_hexdigest (hexdigest : String) (resp : FileResponse) : Outcome :=
  match resp.results with
  | none => .uncaught (.keyError "results")
  | some res =>
    match res.scans with
    | none => .ok []
    | some scans =>
      match hexLabels scans with
      | .error e => .uncaught e
      | .ok names => .ok (names.map (mkIsTool hexdigest))

/-- One entry of results['resolutions']. -/
structure Resolution where
  hostname : String
  ip_address : String
deriving DecidableEq

/-- One entry of the detected sample lists. -/
structure Sample where
  sha256 : String
deriving DecidableEq

/-- results value of an IP or domain report; each section may be absent. -/
structure NetResults where
  resolutions : Option (List Resolution)
  detected_downloaded_samples : Option (List Sample)
  detected_communicating_samples : Option (List Sample)
deriving DecidableEq

/-- An IP or domain report response; the results key may be absent. -/
structure NetResponse where
  results : Option NetResults
deriving DecidableEq

/-- Outcome of ipaddress.ip_address classification, which the spec
scopes out as a trusted utility with a three-way outcome. -/
inductive IPKind where
  | v4 : IPKind
  | v6 : IPKind
  | invalid : IPKind
deriving DecidableEq

/-- The platform object type chosen for a parsed address. -/
def ipTypeName : IPKind → String
  | .v4 => "ipv4"
  | .v6 => "ipv6"
  | .invalid => ""

/-- handle_ip, src/vt.py lines 152-199, with the ipaddress parse passed
in as its classification outcome.  An invalid address returns before any
query; a response without results prints it and exits 1; otherwise the
three optional sections are walked in order. -/
def handle_ip (parsed : IPKind) (ip : String) (resp : NetResponse) : Outcome :=
  match parsed with
  | .invalid => .ok []
  | k =>
    match resp.results with
    | none => .reportExit1
    | some res =>
      let it := ipTypeName k
      let f1 := match res.resolutions with
        | some rs => rs.map (fun r => (⟨"DNSRecord", some "A", "fqdn", r.hostname, it, ip⟩ : Fact))
        | none => []
      let f2 := match res.detected_downloaded_samples with
        | some ss => ss.map (fun s => (⟨"observation", none, "hash", s.sha256, it, ip⟩ : Fact))
        | none => []
      let f3 := match res.detected_communicating_samples with
        | some ss => ss.map (fun s => (⟨"usesC2", some it, "hash", s.sha256, it, ip⟩ : Fact))
        | none => []
      .ok (f1 ++ f2 ++ f3)

/-- handle_domain, src/vt.py lines 202-250, with the per-resolution
ipaddress parse passed in as a classification function.  A response
without results prints it and exits 1; resolutions with unparseable
addresses are skipped silently. -/
def handle_domain (parseIp : String → IPKind) (domain : String) (resp : NetResponse) : Outcome :=
  match resp.results with
  | none => .reportExit1
  | some res =>
    let f1 := match res.resolutions with
      | some rs => rs.filterMap (fun r =>
          match parseIp r.ip_address with
          | .invalid => none
          | k => some (⟨"DNSRecord", some "A", "fqdn", domain, ipTypeName k, r.ip_address⟩ : Fact))
      | none => []
    let f2 := match res.detected_downloaded_samples with
      | some ss => ss.map (fun s => (⟨"observation", none, "hash", s.sha256, "fqdn", domain⟩ : Fact))
      | none => []
    let f3 := match res.detected_communicating_samples with
      | some ss => ss.map (fun s => (⟨"usesC2", some "fqdn", "hash", s.sha256, "fqdn", domain⟩ : Fact))
      | none => []
    .ok (f1 ++ f2 ++ f3)

/-- The scans table of the end-to-end scenario of claim C1, in the order
written there. -/
def scansC1 : List (String × ScanBody) :=
  [("EngineA", ⟨true, "Trojan:Win32/Occamy.C"⟩),
   ("EngineB", ⟨true, "Adware.Win32.OpenCandy.a"⟩)]

/-- A scans table realising the tally of claim C2 (trojan 3, dropper 3,
malware 1) with the dropper votes accumulated first. -/
def scansC2 : List (String × ScanBody) :=
  [("E1", ⟨true, "dropper"⟩), ("E2", ⟨true, "dropper"⟩), ("E3", ⟨true, "dropper"⟩),
   ("E4", ⟨true, "trojan"⟩), ("E5", ⟨true, "trojan"⟩), ("E6", ⟨true, "trojan"⟩),
   ("E7", ⟨true, "malware"⟩)]

/-- The concrete response used to witness claim C8. -/
def respC8 : FileResponse := ⟨some ⟨some [("X", ⟨true, "OpenCandy"⟩)]⟩⟩

theorem takeWhile_append_all (p : Char → Bool) :
    ∀ (n suf : List Char), (∀ x ∈ n, p x = true) →
      (suf = [] ∨ ∃ s0 v, suf = s0 :: v ∧ p s0 = false) →
      (n ++ suf).takeWhile p = n := by
  intro n
  induction n with
  | nil =>
    intro suf _ hs
    rcases hs with h | ⟨s0, v, hv, hps⟩
    · simp [h]
    · subst hv
      simp [List.takeWhile, hps]
  | cons a t ih =>
    intro suf hall hs
    have hpa : p a = true := hall a (List.mem_cons_self a t)
    have ht : ∀ x ∈ t, p x = true := fun x hx => hall x (List.mem_cons_of_mem a hx)
    simp only [List.cons_append, List.takeWhile, hpa, List.append_eq]
    rw [ih suf ht hs]

theorem findDelim_pre (d : Char) :
    ∀ (pre rest : List Char), d ∉ pre → ('\n') ∉ pre →
      findDelim d (pre ++ d :: rest) = some (pre, rest) := by
  intro pre
  induction pre with
  | nil => intro rest _ _; simp [findDelim]
  | cons a t ih =>
    intro rest hd hn
    have had : a ≠ d := fun h => hd (h ▸ List.mem_cons_self a t)
    have han : a ≠ '\n' := fun h => hn (h ▸ List.mem_cons_self a t)
    have htd : d ∉ t := fun h => hd (List.mem_cons_of_mem a h)
    have htn : ('\n') ∉ t := fun h => hn (List.mem_cons_of_mem a h)
    simp only [List.cons_append, findDelim, if_neg had, if_neg han, List.append_eq,
      ih rest htd htn]

theorem kaspC_spec (c suf : List Char) (hc : c ≠ []) (hdc : ('.') ∉ c)
    (hs : suf = [] ∨ ∃ v, suf = '.' :: v) :
    kaspC (c ++ suf) = some c := by
  cases c with
  | nil => exact absurd rfl hc
  | cons c0 ct =>
    have hc0 : c0 ≠ '.' := fun h => hdc (h ▸ List.mem_cons_self _ _)
    have hta : ∀ x ∈ (c0 :: ct), (!(x == '.')) = true := by
      intro x hx
      have hxd : x ≠ '.' := fun h => hdc (h ▸ hx)
      simp [hxd]
    have hsuf : suf = [] ∨ ∃ s0 v, suf = s0 :: v ∧ (!(s0 == '.')) = false := by
      rcases hs with h | ⟨v, hv⟩
      · exact Or.inl h
      · exact Or.inr ⟨'.', v, hv, by decide⟩
    show kaspC (c0 :: (ct ++ suf)) = some (c0 :: ct)
    simp only [kaspC, if_neg hc0]
    rw [show c0 :: (ct ++ suf) = (c0 :: ct) ++ suf from rfl,
        takeWhile_append_all _ (c0 :: ct) suf hta hsuf]

theorem kaspB_spec : ∀ (b w cres : List Char), b ≠ [] → ('\n') ∉ b → ('.') ∉ b →
    kaspC w = some cres → kaspB (b ++ '.' :: w) = some cres := by
  intro b
  induction b with
  | nil => intro w cres h _ _ _; exact absurd rfl h
  | cons b0 bt ih =>
    intro w cres _ hn hd hkc
    have hb0n : b0 ≠ '\n' := fun h => hn (h ▸ List.mem_cons_self _ _)
    cases bt with
    | nil =>
      show kaspB (b0 :: '.' :: w) = some cres
      simp [kaspB, hb0n, hkc]
    | cons b1 bt' =>
      have hb1 : b1 ≠ '.' := fun h => hd (h ▸ List.mem_cons_of_mem _ (List.mem_cons_self _ _))
      have hn' : ('\n') ∉ (b1 :: bt') := fun h => hn (List.mem_cons_of_mem _ h)
      have hd' : ('.') ∉ (b1 :: bt') := fun h => hd (List.mem_cons_of_mem _ h)
      show kaspB (b0 :: b1 :: (bt' ++ '.' :: w)) = some cres
      simp only [kaspB, if_neg hb0n, if_neg hb1]
      exact ih w cres (by simp) hn' hd' hkc

theorem kaspA_spec : ∀ (a t cres : List Char), a ≠ [] → ('\n') ∉ a → ('.') ∉ a →
    kaspB t = some cres → kaspA (a ++ '.' :: t) = some cres := by
  intro a
  induction a with
  | nil => intro t cres h _ _ _; exact absurd rfl h
  | cons a0 at' ih =>
    intro t cres _ hn hd hkb
    have ha0n : a0 ≠ '\n' := fun h => hn (h ▸ List.mem_cons_self _ _)
    cases at' with
    | nil =>
      show kaspA (a0 :: '.' :: t) = some cres
      simp [kaspA, ha0n, hkb]
    | cons a1 at'' =>
      have ha1 : a1 ≠ '.' := fun h => hd (h ▸ List.mem_cons_of_mem _ (List.mem_cons_self _ _))
      have hn' : ('\n') ∉ (a1 :: at'') := fun h => hn (List.mem_cons_of_mem _ h)
      have hd' : ('.') ∉ (a1 :: at'') := fun h => hd (List.mem_cons_of_mem _ h)
      show kaspA (a0 :: a1 :: (at'' ++ '.' :: t)) = some cres
      simp only [kaspA, if_neg ha0n, if_neg ha1]
      exact ih t cres (by simp) hn' hd' hkb

theorem kaspPreAux_spec : ∀ (q t cres : List Char), q ≠ [] → ('\n') ∉ q → (':') ∉ q →
    kaspA t = some cres → kaspPreAux (q ++ ':' :: t) = some cres := by
  intro q
  induction q with
  | nil => intro t cres h _ _ _; exact absurd rfl h
  | cons q0 qt ih =>
    intro t cres _ hn hc hka
    have hq0n : q0 ≠ '\n' := fun h => hn (h ▸ List.mem_cons_self _ _)
    cases qt with
    | nil =>
      show kaspPreAux (q0 :: ':' :: t) = some cres
      simp [kaspPreAux, hq0n, hka]
    | cons q1 qt' =>
      have hq1 : q1 ≠ ':' := fun h => hc (h ▸ List.mem_cons_of_mem _ (List.mem_cons_self _ _))
      have hn' : ('\n') ∉ (q1 :: qt') := fun h => hn (List.mem_cons_of_mem _ h)
      have hc' : (':') ∉ (q1 :: qt') := fun h => hc (List.mem_cons_of_mem _ h)
      show kaspPreAux (q0 :: q1 :: (qt' ++ ':' :: t)) = some cres
      simp only [kaspPreAux, if_neg hq0n, if_neg hq1]
      exact ih t cres (by simp) hn' hc' hka

theorem insertDesc_head (x : String × Nat) (l : List (String × Nat)) :
    (insertDesc x l).head? =
      some (match l.head? with
            | none => x
            | some y => if y.2 ≤ x.2 then x else y) := by
  cases l with
  | nil => rfl
  | cons y ys =>
    simp only [insertDesc, List.head?_cons]
    by_cases h : y.2 ≤ x.2
    · rw [if_pos h]
      simp [h]
    · rw [if_neg h]
      simp [h]

theorem head_sortDesc : ∀ l : List (String × Nat), (sortDesc l).head? = fm l := by
  intro l
  induction l with
  | nil => rfl
  | cons x xs ih =>
    show (insertDesc x (sortDesc xs)).head? = fm (x :: xs)
    rw [insertDesc_head, ih,
      show fm (x :: xs) = (match fm xs with
        | none => some x
        | some m => if x.2 < m.2 then some m else some x) from rfl]
    cases hf : fm xs with
    | none => rfl
    | some m =>
      show some (if m.2 ≤ x.2 then x else m) = (if x.2 < m.2 then some m else some x)
      by_cases h : m.2 ≤ x.2
      · rw [if_pos h, if_neg (by omega)]
      · rw [if_neg h, if_pos (by omega)]

theorem countOf_incr (k : List (String × Nat)) (g key : String) :
    countOf (incr k g) key = countOf k key + (if key = g then 1 else 0) := by
  induction k with
  | nil =>
    by_cases h : key = g
    · subst h; simp [incr, countOf]
    · have h' : g ≠ key := fun e => h e.symm
      simp [incr, countOf, h, h']
  | cons hd t ih =>
    obtain ⟨s, n⟩ := hd
    by_cases hsg : s = g
    · subst hsg
      simp only [incr, if_pos rfl]
      by_cases hks : s = key
      · subst hks; simp [countOf]
      · simp only [countOf, if_neg hks]
        have hkg : ¬ (key = s) := fun e => hks e.symm
        simp [hkg]
    · simp only [incr, if_neg hsg]
      by_cases hks : s = key
      · subst hks
        have hkg : ¬ (s = g) := hsg
        simp [countOf, hkg]
      · simp only [countOf, if_neg hks]
        exact ih

theorem countOf_foldl_vote (L : List String) :
    ∀ (kind : List (String × Nat)) (res key : String), L.Nodup →
      countOf (L.foldl (fun k h => if containsSub h res then incr k h else k) kind) key =
        countOf kind key + (if (key ∈ L ∧ containsSub key res = true) then 1 else 0) := by
  induction L with
  | nil => intro kind res key _; simp
  | cons g L2 ih =>
    intro kind res key hnd
    have hnd2 : L2.Nodup := (List.nodup_cons.mp hnd).2
    have hgni : g ∉ L2 := (List.nodup_cons.mp hnd).1
    simp only [List.foldl_cons]
    rw [ih _ res key hnd2]
    by_cases hkg : key = g
    · subst hkg
      have hknl : ¬ (key ∈ L2 ∧ containsSub key res = true) := fun hx => hgni hx.1
      rw [if_neg hknl]
      by_cases hcg : containsSub key res = true
      · rw [if_pos hcg, countOf_incr, if_pos rfl,
          if_pos ⟨List.mem_cons_self _ _, hcg⟩]
      · rw [if_neg hcg, if_neg (fun hx => hcg hx.2)]
    · have hmem : (key ∈ g :: L2 ∧ containsSub key res = true) ↔
          (key ∈ L2 ∧ containsSub key res = true) := by
        constructor
        · rintro ⟨hm, hc⟩
          rcases List.mem_cons.mp hm with he | hm2
          · exact absurd he hkg
          · exact ⟨hm2, hc⟩
        · rintro ⟨hm, hc⟩
          exact ⟨List.mem_cons_of_mem _ hm, hc⟩
      by_cases hcg : containsSub g res = true
      · rw [if_pos hcg, countOf_incr, if_neg hkg]
        simp only [Nat.add_zero]
        by_cases hfin : key ∈ L2 ∧ containsSub key res = true
        · rw [if_pos hfin, if_pos (hmem.mpr hfin)]
        · rw [if_neg hfin, if_neg (fun hx => hfin (hmem.mp hx))]
      · rw [if_neg hcg]
        by_cases hfin : key ∈ L2 ∧ containsSub key res = true
        · rw [if_pos hfin, if_pos (hmem.mpr hfin)]
        · rw [if_neg hfin, if_neg (fun hx => hfin (hmem.mp hx))]

theorem mem_addName_self (names : List String) (n : String) : n ∈ addName names n := by
  unfold addName
  split
  · assumption
  · exact List.mem_append_right _ (List.mem_singleton.mpr rfl)

theorem mem_addName_mono {x : String} (names : List String) (m : String)
    (h : x ∈ names) : x ∈ addName names m := by
  unfold addName
  split
  · exact h
  · exact List.mem_append_left _ h

theorem mem_noteName_mono {x : String} (names : List String) (o : Option String)
    (h : x ∈ names) : x ∈ noteName names o := by
  cases o with
  | none => exact h
  | some n =>
    show x ∈ (if n = "" then names else addName names n)
    by_cases he : n = ""
    · rw [if_pos he]; exact h
    · rw [if_neg he]; exact mem_addName_mono _ _ h

theorem mem_noteAdware_mono {x : String} (names : List String) (res : String)
    (h : x ∈ names) : x ∈ noteAdware names res := by
  unfold noteAdware
  split
  · exact mem_addName_mono _ _ h
  · exact h

theorem adware_mem_noteAdware (names : List String) (res : String)
    (h : is_adware res = true) : "adware" ∈ noteAdware names res := by
  unfold noteAdware
  rw [if_pos h]
  exact mem_addName_self _ _

theorem foldScans_mono : ∀ (scans : List (String × ScanBody)) (names : List String)
    (kind : List (String × Nat)) (out : List String × List (String × Nat)),
    foldScans scans names kind = .ok out → ∀ x ∈ names, x ∈ out.1 := by
  intro scans
  induction scans with
  | nil =>
    intro names kind out h x hx
    simp only [foldScans] at h
    cases h
    exact hx
  | cons hd tl ih =>
    intro names kind out h x hx
    obtain ⟨engine, body⟩ := hd
    simp only [foldScans] at h
    by_cases hdet : body.detected = true
    · rw [if_pos hdet] at h
      cases hne : name_extraction engine body.result with
      | error e =>
        rw [hne] at h
        exact absurd h (by simp)
      | ok nameOpt =>
        simp only [hne] at h
        exact ih _ _ _ h x (mem_noteAdware_mono _ _ (mem_noteName_mono _ _ hx))
    · rw [if_neg hdet] at h
      exact ih _ _ _ h x hx

theorem foldScans_adware : ∀ (scans : List (String × ScanBody)) (names : List String)
    (kind : List (String × Nat)) (out : List String × List (String × Nat))
    (engine : String) (body : ScanBody),
    (engine, body) ∈ scans → body.detected = true →
    is_adware (strLower body.result) = true →
    foldScans scans names kind = .ok out → "adware" ∈ out.1 := by
  intro scans
  induction scans with
  | nil =>
    intro names kind out engine body hmem
    cases hmem
  | cons hd tl ih =>
    intro names kind out engine body hmem hdet hadw h
    obtain ⟨e1, b1⟩ := hd
    simp only [foldScans] at h
    rcases List.mem_cons.mp hmem with heq | hmem2
    · cases heq
      rw [if_pos hdet] at h
      cases hne : name_extraction engine body.result with
      | error e =>
        rw [hne] at h
        exact absurd h (by simp)
      | ok nameOpt =>
        simp only [hne] at h
        exact foldScans_mono tl _ _ _ h "adware" (adware_mem_noteAdware _ _ hadw)
    · by_cases hdet1 : b1.detected = true
      · rw [if_pos hdet1] at h
        cases hne : name_extraction e1 b1.result with
        | error e =>
          rw [hne] at h
          exact absurd h (by simp)
        | ok nameOpt =>
          simp only [hne] at h
          exact ih _ _ _ _ _ hmem2 hdet hadw h
      · rw [if_neg hdet1] at h
        exact ih _ _ _ _ _ hmem2 hdet hadw h

theorem kaspPreAux_none : ∀ (s : List Char), (':') ∉ s → kaspPreAux s = none := by
  intro s
  induction s with
  | nil => intro _; rfl
  | cons x rest ih =>
    intro hcol
    cases rest with
    | nil => rfl
    | cons r0 w =>
      have hr0 : r0 ≠ ':' := fun h =>
        hcol (h ▸ List.mem_cons_of_mem _ (List.mem_cons_self _ _))
      have hrest : (':') ∉ (r0 :: w) := fun h => hcol (List.mem_cons_of_mem _ h)
      by_cases hx : x = '\n'
      · simp [kaspPreAux, hx]
      · simp only [kaspPreAux, if_neg hx, if_neg hr0]
        exact ih hrest

/-- C1 counterexample: on the scans map of the claim, with engines named
EngineA and EngineB, the produced label set is not the claimed
set containing occamy: no extraction fires for those engine identifiers
and the set is adware plus the heuristic winner trojan. -/
theorem C1_counterexample :
    hexLabels scansC1 = .ok ["adware", "trojan"] ∧
    "occamy" ∉ (["adware", "trojan"] : List String) :=
  ⟨by decide, by decide⟩

/-- C1 amended: for the hash handler, given a response whose scans map is
exactly EngineA with Trojan:Win32/Occamy.C and EngineB with
Adware.Win32.OpenCandy.a, the produced label set equals the set of trojan
and adware: no name is extracted (neither engine identifier is Microsoft
or Kaspersky), EngineB adds the adware override label, and the heuristic
vote over the tally trojan 1, adware 1 adds trojan, the first-inserted of
the tied categories. -/
theorem C1_amended :
    hexLabels scansC1 = .ok ["adware", "trojan"] ∧
    (["adware", "trojan"] : List String).toFinset = {"trojan", "adware"} ∧
    (∀ eb ∈ scansC1, name_extraction eb.1 eb.2.result = .ok none) ∧
    hexTally scansC1 = .ok [("trojan", 1), ("adware", 1)] :=
  ⟨by decide, by decide, by decide, by decide⟩

/-- C2 counterexample: a scans map realising exactly the tally of the
claim (trojan 3, dropper 3, malware 1) in which the dropper votes arrive
first produces the label dropper, although trojan is declared before
dropper in the heuristic vocabulary, refuting the claim that ties go to
the first-declared category regardless of vote accumulation order. -/
theorem C2_counterexample :
    hexTally scansC2 = .ok [("dropper", 3), ("trojan", 3), ("malware", 1)] ∧
    AV_HEURISTICS.take 3 = ["trojan", "adware", "dropper"] ∧
    hexLabels scansC2 = .ok ["dropper"] ∧
    "trojan" ∉ (["dropper"] : List String) :=
  ⟨by decide, by decide, by decide, by decide⟩

/-- C2 amended: when the heuristic tally is non-empty, the label added is
the head key of the most_common ordering, and for every tally this equals
the first entry, in tally insertion order (the order in which categories
first received a vote), among those attaining the maximal count; ties are
not broken by the vocabulary declaration order but by first insertion
into the tally. -/
theorem C2_amended (kind : List (String × Nat)) :
    mostCommonKey kind = Option.map Prod.fst (fm kind) := by
  show ((sortDesc kind).head?).map Prod.fst = Option.map Prod.fst (fm kind)
  rw [head_sortDesc]

/-- C3: the name extractor is not total.  On the detected Microsoft
result Trojan:Win32/ the pattern matches with an empty name group, the
Python code calls .lower() on None and raises AttributeError, and the
whole hash handler invocation dies with that uncaught exception instead
of degrading to the absent marker. -/
theorem C3_extraction_crash :
    name_extraction "Microsoft" "Trojan:Win32/" = .error PyErr.attributeError ∧
    handle_hexdigest "d41d8cd9" ⟨some ⟨some [("Microsoft", ⟨true, "Trojan:Win32/"⟩)]⟩⟩ =
      Outcome.uncaught PyErr.attributeError :=
  ⟨by decide, by decide⟩

/-- C4 counterexample: the heuristic vocabulary does not contain the
terms remote-access-tool or eicar-test; a detected string that literally
contains remote-access-tool yields an empty tally, although the claim
requires that category to be incremented. -/
theorem C4_counterexample :
    containsSub "remote-access-tool" (strLower "Remote-Access-Tool.Win32.x") = true ∧
    countOf (stepKind [] (strLower "Remote-Access-Tool.Win32.x")) "remote-access-tool" = 0 ∧
    "remote-access-tool" ∉ AV_HEURISTICS ∧
    hexTally [("E1", ⟨true, "Remote-Access-Tool.Win32.x"⟩)] = .ok [] :=
  ⟨by decide, by decide, by decide, by decide⟩

/-- C4 amended: the closed heuristic vocabulary is exactly trojan,
adware, dropper, miner, backdoor, malware, downloader, rat, hacktool,
ransomware, cryptolocker, banker, financial, eicar, scanner (rat and
eicar, not remote-access-tool and eicar-test), and for every raw
detection string and every category, one pass of the vote loop
increments that category's tally by exactly one if and only if the
category term occurs as a substring of the lower-cased string. -/
theorem C4_amended :
    AV_HEURISTICS = ["trojan", "adware", "dropper", "miner",
      "backdoor", "malware", "downloader", "rat",
      "hacktool", "ransomware", "cryptolocker",
      "banker", "financial", "eicar", "scanner"] ∧
    ∀ (kind : List (String × Nat)) (s key : String),
      countOf (stepKind kind (strLower s)) key =
        countOf kind key +
          (if (key ∈ AV_HEURISTICS ∧ containsSub key (strLower s) = true) then 1 else 0) := by
  refine ⟨rfl, ?_⟩
  intro kind s key
  exact countOf_foldl_vote AV_HEURISTICS kind (strLower s) key (by decide)

/-- C5 counterexample: on a response lacking the top-level results key the
hash handler does not report the raw response and exit; it raises an
uncaught KeyError, refuting the claim for that handler. -/
theorem C5_counterexample :
    handle_hexdigest "aa" ⟨none⟩ = Outcome.uncaught (.keyError "results") ∧
    Outcome.uncaught (PyErr.keyError "results") ≠ Outcome.reportExit1 :=
  ⟨rfl, by decide⟩

/-- C5 amended: when the upstream response lacks the top-level results
key, the IP and domain handlers report the raw response and exit with a
non-zero status, while the hash handler raises an uncaught
KeyError for results, which terminates the invocation with a non-zero
status without the handler reporting the raw response. -/
theorem C5_amended (ip domain digest : String) (pf : String → IPKind) (k : IPKind)
    (nresp : NetResponse) (fresp : FileResponse)
    (hk : k ≠ IPKind.invalid) (hn : nresp.results = none) (hf : fresp.results = none) :
    handle_ip k ip nresp = Outcome.reportExit1 ∧
    handle_domain pf domain nresp = Outcome.reportExit1 ∧
    handle_hexdigest digest fresp = Outcome.uncaught (.keyError "results") := by
  refine ⟨?_, ?_, ?_⟩
  · cases k with
    | invalid => exact absurd rfl hk
    | v4 => simp [handle_ip, hn]
    | v6 => simp [handle_ip, hn]
  · simp [handle_domain, hn]
  · simp [handle_hexdigest, hf]

/-- C5 amended witness: the amended statement evaluated at concrete
inputs with an absent results key. -/
theorem C5_amended_witness :
    IPKind.v4 ≠ IPKind.invalid ∧
    handle_ip IPKind.v4 "8.8.8.8" ⟨none⟩ = Outcome.reportExit1 ∧
    handle_domain (fun _ => IPKind.invalid) "example.org" ⟨none⟩ = Outcome.reportExit1 ∧
    handle_hexdigest "00" ⟨none⟩ = Outcome.uncaught (.keyError "results") := by
  have h := C5_amended "8.8.8.8" "example.org" "00" (fun _ => IPKind.invalid)
    IPKind.v4 ⟨none⟩ ⟨none⟩ (by decide) rfl rfl
  exact ⟨by decide, h.1, h.2.1, h.2.2⟩

/-- C6: for every detection string of the shape
category colon platform slash name, with an optional trailing variant
suffix introduced by an exclamation mark or a dot, extraction for the
Microsoft engine returns the lower-cased name segment, independent of the
suffix.  The shape hypotheses pin the grammar: the category contains no
colon, the platform no slash, neither contains a newline, and the name is
a nonempty run free of exclamation marks and dots. -/
theorem C6_microsoft_grammar (s : String) (c p n suf : List Char)
    (hcol : (':') ∉ c) (hnc : ('\n') ∉ c)
    (hsl : ('/') ∉ p) (hnp : ('\n') ∉ p)
    (hn : n ≠ []) (hok : ∀ x ∈ n, x ≠ '!' ∧ x ≠ '.')
    (hsuf : suf = [] ∨ (∃ v, suf = '!' :: v) ∨ (∃ v, suf = '.' :: v))
    (hdata : s.data = c ++ ':' :: (p ++ '/' :: (n ++ suf))) :
    name_extraction "Microsoft" s = .ok (some (strLower ⟨n⟩)) := by
  have h1 : findDelim ':' s.data = some (c, p ++ '/' :: (n ++ suf)) := by
    rw [hdata]
    exact findDelim_pre ':' c _ hcol hnc
  have h2 : findDelim '/' (p ++ '/' :: (n ++ suf)) = some (p, n ++ suf) :=
    findDelim_pre '/' p _ hsl hnp
  have htw : (n ++ suf).takeWhile msKeep = n := by
    apply takeWhile_append_all
    · intro x hx
      obtain ⟨hx1, hx2⟩ := hok x hx
      simp [msKeep, hx1, hx2]
    · rcases hsuf with h | ⟨v, hv⟩ | ⟨v, hv⟩
      · exact Or.inl h
      · exact Or.inr ⟨'!', v, hv, by decide⟩
      · exact Or.inr ⟨'.', v, hv, by decide⟩
  have hg3 : msGroup3 s.data = some (some n) := by
    unfold msGroup3
    simp only [h1, h2, htw]
    cases n with
    | nil => exact absurd rfl hn
    | cons n0 nt => rfl
  unfold name_extraction
  rw [if_pos rfl, hg3]

/-- C6 witness: the claim's own example Trojan:Win32/Occamy.C extracts
occamy through the grammar theorem. -/
theorem C6_microsoft_grammar_witness :
    name_extraction "Microsoft" "Trojan:Win32/Occamy.C" = .ok (some "occamy") := by
  have h := C6_microsoft_grammar "Trojan:Win32/Occamy.C"
    ['T', 'r', 'o', 'j', 'a', 'n'] ['W', 'i', 'n', '3', '2']
    ['O', 'c', 'c', 'a', 'm', 'y'] ['.', 'C']
    (by decide) (by decide) (by decide) (by decide) (by decide) (by decide)
    (Or.inr (Or.inr ⟨['C'], rfl⟩)) (by decide)
  rw [h]
  decide

/-- C7: for every detection string of the shape
optional prefix colon, then type dot platform dot name with an optional
dot variant, extraction for the Kaspersky engine returns the lower-cased
name, the third dotted segment.  The shape hypotheses pin the grammar:
type, platform and name are nonempty dot-free segments (type and platform
newline-free), and either a nonempty colon-free prefix ends at a colon,
or the string contains no colon at all. -/
theorem C7_kaspersky_grammar (s : String) (a b c suf : List Char)
    (ha : a ≠ []) (hb : b ≠ []) (hc : c ≠ [])
    (hda : ('.') ∉ a) (hdb : ('.') ∉ b) (hdc : ('.') ∉ c)
    (hna : ('\n') ∉ a) (hnb : ('\n') ∉ b)
    (hsuf : suf = [] ∨ ∃ v, suf = '.' :: v)
    (hshape :
      (∃ q, q ≠ [] ∧ (':') ∉ q ∧ ('\n') ∉ q ∧
        s.data = q ++ ':' :: (a ++ '.' :: (b ++ '.' :: (c ++ suf)))) ∨
      (s.data = a ++ '.' :: (b ++ '.' :: (c ++ suf)) ∧ (':') ∉ s.data)) :
    name_extraction "Kaspersky" s = .ok (some (strLower ⟨c⟩)) := by
  have hC : kaspC (c ++ suf) = some c := kaspC_spec c suf hc hdc hsuf
  have hB : kaspB (b ++ '.' :: (c ++ suf)) = some c := kaspB_spec b _ c hb hnb hdb hC
  have hA : kaspA (a ++ '.' :: (b ++ '.' :: (c ++ suf))) = some c :=
    kaspA_spec a _ c ha hna hda hB
  have hg5 : kaspGroup5 s.data = some c := by
    rcases hshape with ⟨q, hq, hcq, hnq, hdata⟩ | ⟨hdata, hnocolon⟩
    · rw [hdata]
      unfold kaspGroup5
      rw [kaspPreAux_spec q _ c hq hnq hcq hA]
    · rw [hdata] at hnocolon
      rw [hdata]
      unfold kaspGroup5
      rw [kaspPreAux_none _ hnocolon]
      exact hA
  unfold name_extraction
  rw [if_neg (by decide), if_pos rfl, hg5]

/-- C7 witness: the claim's own example Trojan.Win32.Occamy.gen extracts
occamy through the grammar theorem. -/
theorem C7_kaspersky_grammar_witness :
    name_extraction "Kaspersky" "Trojan.Win32.Occamy.gen" = .ok (some "occamy") := by
  have h := C7_kaspersky_grammar "Trojan.Win32.Occamy.gen"
    ['T', 'r', 'o', 'j', 'a', 'n'] ['W', 'i', 'n', '3', '2']
    ['O', 'c', 'c', 'a', 'm', 'y'] ['.', 'g', 'e', 'n']
    (by decide) (by decide) (by decide) (by decide) (by decide) (by decide)
    (by decide) (by decide)
    (Or.inr ⟨['g', 'e', 'n'], rfl⟩)
    (Or.inr ⟨by decide, by decide⟩)
  rw [h]
  decide

/-- C8: in the hash pipeline, every detected engine whose lower-cased raw
string contains an adware override term forces the adware label into the
emitted fact set, whenever the handler completes normally. -/
theorem C8_adware_override (digest : String) (resp : FileResponse) (fr : FileResults)
    (scans : List (String × ScanBody)) (engine : String) (body : ScanBody) (facts : List Fact)
    (h1 : resp.results = some fr) (h2 : fr.scans = some scans)
    (hmem : (engine, body) ∈ scans) (hdet : body.detected = true)
    (hov : ∃ t, t ∈ ADWARE_OVERRIDES ∧ containsSub t (strLower body.result) = true)
    (hrun : handle_hexdigest digest resp = .ok facts) :
    mkIsTool digest "adware" ∈ facts := by
  have hadw : is_adware (strLower body.result) = true := by
    obtain ⟨t, ht, hcs⟩ := hov
    unfold is_adware
    exact List.any_eq_true.mpr ⟨t, ht, hcs⟩
  unfold handle_hexdigest at hrun
  simp only [h1, h2] at hrun
  cases hl : hexLabels scans with
  | error e =>
    rw [hl] at hrun
    exact absurd hrun (by simp)
  | ok names =>
    rw [hl] at hrun
    have hfacts : names.map (mkIsTool digest) = facts := Outcome.ok.inj hrun
    have hmemad : "adware" ∈ names := by
      unfold hexLabels at hl
      cases hfold : foldScans scans [] [] with
      | error e =>
        rw [hfold] at hl
        exact absurd hl (by simp)
      | ok pr =>
        obtain ⟨names0, kind⟩ := pr
        rw [hfold] at hl
        have h0 : "adware" ∈ names0 :=
          foldScans_adware scans [] [] (names0, kind) engine body hmem hdet hadw hfold
        have hl2 := Except.ok.inj hl
        rw [← hl2]
        cases hmc : mostCommonKey kind with
        | some w =>
          simp only [hmc]
          exact mem_addName_mono _ _ h0
        | none =>
          simp only [hmc]
          exact h0
    rw [← hfacts]
    exact List.mem_map_of_mem (mkIsTool digest) hmemad

/-- C8 witness: a single detected engine whose result contains OpenCandy
in mixed case yields the adware fact. -/
theorem C8_adware_override_witness :
    handle_hexdigest "d4" respC8 = .ok [mkIsTool "d4" "adware"] ∧
    mkIsTool "d4" "adware" ∈ [mkIsTool "d4" "adware"] :=
  ⟨by decide,
    C8_adware_override "d4" respC8 ⟨some [("X", ⟨true, "OpenCandy"⟩)]⟩
      [("X", ⟨true, "OpenCandy"⟩)] "X" ⟨true, "OpenCandy"⟩ [mkIsTool "d4" "adware"]
      rfl rfl (by decide) rfl ⟨"opencandy", by decide, by decide⟩ (by decide)⟩

/-- C9: a response whose results carry no scans key makes the hash
handler return normally with no facts and no exception. -/
theorem C9_no_scans (digest : String) (resp : FileResponse) (fr : FileResults)
    (h1 : resp.results = some fr) (h2 : fr.scans = none) :
    handle_hexdigest digest resp = .ok [] := by
  unfold handle_hexdigest
  simp [h1, h2]

/-- C9 witness: the no-scans theorem evaluated at a concrete response. -/
theorem C9_no_scans_witness :
    (⟨some ⟨none⟩⟩ : FileResponse).results = some ⟨none⟩ ∧
    handle_hexdigest "00ff" ⟨some ⟨none⟩⟩ = Outcome.ok [] :=
  ⟨rfl, C9_no_scans "00ff" ⟨some ⟨none⟩⟩ ⟨none⟩ rfl rfl⟩

/-- C10: the standalone adware test is case-sensitive on its own input:
it holds exactly when one of the four override tokens occurs verbatim as
a substring, so it rejects the non-lower-cased OpenCandy, while the hash
pipeline still labels such a record adware because the handler
lower-cases the raw string before the test. -/
theorem C10_is_adware_plain :
    is_adware "OpenCandy" = false ∧
    (∀ text : String, is_adware text = true ↔
      ∃ t, t ∈ (["opencandy", "monetize", "adload", "somoto"] : List String) ∧
        containsSub t text = true) ∧
    hexLabels [("SomeEngine", ⟨true, "OpenCandy"⟩)] = .ok ["adware"] := by
  refine ⟨by decide, ?_, by decide⟩
  intro text
  unfold is_adware ADWARE_OVERRIDES
  constructor
  · intro h
    obtain ⟨t, ht, hp⟩ := List.any_eq_true.mp h
    exact ⟨t, ht, hp⟩
  · rintro ⟨t, ht, hp⟩
    exact List.any_eq_true.mpr ⟨t, ht, hp⟩

end VT
